import Mathlib

/-!
# Verification of the `aish` parsing and execution core

Shallow embedding of `src/parser.rs` (tokenizer, variable expander, parser)
and the job-table / external-command parts of `src/shell.rs`, with theorems
checking the specification's claims against the embedded code.

Conventions:
* Rust `Vec<T>` is `List T`; `String` is Lean `String` (or `List Char` while
  a token is being built); `Result<T, E>` is `Except E T`.
* the Rust process environment read by `std::env::var` is modelled as an
  association list `Env`; `std::env::var` fails exactly when the name is
  absent from the list.
* Rust's Unicode `char::is_alphanumeric` is modelled on the ASCII fragment
  (`Char.isAlphanum`); every claim is about ASCII inputs.
-/

namespace Aish

/-! ## Data model (`src/parser.rs` lines 3-35) -/

inductive RedirectionType where
  | Input
  | Output
  | Append
  deriving DecidableEq, Repr

structure Redirection where
  redir_type : RedirectionType
  filename : String
  deriving DecidableEq, Repr

structure SimpleCommand where
  args : List String
  redirections : List Redirection
  deriving DecidableEq, Repr

inductive CommandLine where
  | Simple (cmd : SimpleCommand)
  | Pipeline (cmds : List SimpleCommand)
  | Background (cmd : SimpleCommand)
  deriving DecidableEq, Repr

inductive ParseError where
  | UnexpectedToken (token : String)
  | MissingFilename
  | EmptyCommand
  | InvalidSyntax (msg : String)
  deriving DecidableEq, Repr

/-- The process environment read by `std::env::var`, as an association list;
`std::env::var name` succeeds iff `name` has an entry. -/
def Env := List (String × String)

/-- Rust `std::env::var`: first binding of `name`, if any. -/
def envVar (env : Env) (name : String) : Option String :=
  (List.find? (fun p => p.1 = name) env).map Prod.snd

/-! ## Tokenizer (`Parser::tokenize`, `src/parser.rs` lines 95-149)

The Rust loop's mutable state (`tokens`, `current_token`, `in_quotes`,
`quote_char`) becomes explicit arguments; the `chars.peek()` used for `>>`
becomes a two-character pattern. -/

/-- Push `current_token` onto `tokens` if non-empty (the flush that Rust
performs at whitespace, at operators, and at end of input). -/
def flushTok (tokens : List String) (cur : List Char) : List String :=
  if cur = [] then tokens else tokens ++ [String.mk cur]

/-- One-to-one image of the `while let Some(ch) = chars.next()` loop of
`Parser::tokenize`.  Arguments: remaining input, `current_token`,
`in_quotes`, `quote_char`, `tokens`.  The guard chain follows the Rust
`match` arm order; the `chars.peek()` used for `>>` and the
`chars.next()` of the escape arm become matches on the tail. -/
def tokenizeLoop : List Char → List Char → Bool → Char → List String → List String
  | [], cur, _, _, toks => flushTok toks cur
  | c :: rest, cur, inQ, qc, toks =>
    if inQ then
      -- in_quotes: only the matching close-quote arm can fire; every other
      -- character falls through to the default arm (guards `!in_quotes`).
      if (c = '"' ∨ c = '\'') ∧ c = qc then
        tokenizeLoop rest cur false ' ' toks
      else
        tokenizeLoop rest (cur ++ [c]) true qc toks
    else
      if c = '"' ∨ c = '\'' then
        tokenizeLoop rest cur true c toks
      else if c = ' ' ∨ c = '\t' then
        tokenizeLoop rest [] false qc (flushTok toks cur)
      else if c = '|' ∨ c = '&' ∨ c = '<' ∨ c = '>' then
        if c = '>' ∧ rest.head? = some '>' then
          tokenizeLoop rest.tail [] false qc (flushTok toks cur ++ [">>"])
        else
          tokenizeLoop rest [] false qc (flushTok toks cur ++ [String.mk [c]])
      else if c = '\\' then
        -- escape: `chars.next()` pushes the next character when there is
        -- one (`rest.take 1`) and consumes it (`rest.tail`).
        tokenizeLoop rest.tail (cur ++ rest.take 1) false qc toks
      else
        tokenizeLoop rest (cur ++ [c]) false qc toks
termination_by l _ _ _ _ => l.length
decreasing_by
  all_goals
    simp only [List.length_cons, List.length_tail]
    omega

/-- Rust `Parser::tokenize`. -/
def tokenize (input : String) : List String :=
  tokenizeLoop input.data [] false ' ' []

/-! ## Variable expander (`Parser::expand_variables`, `src/parser.rs` lines 234-279) -/

/-- The name-character test of the bare `$NAME` loop:
Rust `ch.is_alphanumeric() || ch == '_'` (ASCII fragment). -/
def isNameChar (c : Char) : Bool :=
  c.isAlphanum || c = '_'

/-- The value spliced for variable `name`: Rust pushes `env::var`'s value on
success and nothing on failure, so an unset variable contributes `[]`. -/
def envValue (env : Env) (name : List Char) : List Char :=
  match envVar env (String.mk name) with
  | some v => v.data
  | none => []

/-- Rust `Parser::expand_variables`, on the token's character list.  The two inner
`while` loops of the Rust code (name until `}`; maximal name-character run)
are rendered with `takeWhile`/`dropWhile`; `drop 1` consumes the closing `}`
when present and is vacuous at end of input (missing `}`). -/
def expandVariables (env : Env) : List Char → List Char
  | [] => []
  | '$' :: '{' :: rest1 =>
      let name := rest1.takeWhile (fun ch => ch ≠ '}')
      let rest2 := (rest1.dropWhile (fun ch => ch ≠ '}')).drop 1
      envValue env name ++ expandVariables env rest2
  | '$' :: rest =>
      let name := rest.takeWhile isNameChar
      let rest2 := rest.dropWhile isNameChar
      if name = [] then
        '$' :: expandVariables env rest2
      else
        envValue env name ++ expandVariables env rest2
  | c :: rest => c :: expandVariables env rest
termination_by l => l.length
decreasing_by
  all_goals
    simp only [List.length_cons, List.length_drop]
    first
      | (have h1 := (@List.dropWhile_sublist Char rest1 (fun ch => ch ≠ '}')).length_le
         omega)
      | (have h1 := (@List.dropWhile_sublist Char rest isNameChar).length_le
         omega)

/-- Rust `Parser::expand_variables` on strings. -/
def expandVariablesStr (env : Env) (token : String) : String :=
  String.mk (expandVariables env token.data)

/-! ## Parser (`Parser::parse_simple_command`, `Parser::parse_pipeline`,
`Parser::parse`, `src/parser.rs` lines 63-93 and 151-232) -/

/-- The `while self.position < self.tokens.len()` walk of
`Parser::parse_simple_command`: `<`, `>`, `>>` consume the next token as a
redirection filename (cloned, not expanded); every other token is pushed as
an argument after `expand_variables`. -/
def parseSimpleCommandLoop (env : Env) :
    List String → List String → List Redirection → Except ParseError SimpleCommand
  | [], args, redirs =>
      if args = [] then .error .EmptyCommand else .ok ⟨args, redirs⟩
  | t :: rest, args, redirs =>
      if t = "<" then
        match rest with
        | [] => .error .MissingFilename
        | f :: rest2 => parseSimpleCommandLoop env rest2 args (redirs ++ [⟨.Input, f⟩])
      else if t = ">" then
        match rest with
        | [] => .error .MissingFilename
        | f :: rest2 => parseSimpleCommandLoop env rest2 args (redirs ++ [⟨.Output, f⟩])
      else if t = ">>" then
        match rest with
        | [] => .error .MissingFilename
        | f :: rest2 => parseSimpleCommandLoop env rest2 args (redirs ++ [⟨.Append, f⟩])
      else
        parseSimpleCommandLoop env rest (args ++ [expandVariablesStr env t]) redirs

/-- Rust `Parser::parse_simple_command` on a token list. -/
def parseSimpleCommand (env : Env) (tokens : List String) : Except ParseError SimpleCommand :=
  parseSimpleCommandLoop env tokens [] []

/-- The `for token in &self.tokens` loop of `Parser::parse_pipeline`:
split on `|`, each group a `SimpleCommand` with empty redirections and
unexpanded argument tokens. -/
def parsePipelineLoop :
    List String → List SimpleCommand → List String → Except ParseError CommandLine
  | [], commands, currentArgs =>
      if currentArgs = [] then .error (.InvalidSyntax "Pipeline ends with |")
      else .ok (.Pipeline (commands ++ [⟨currentArgs, []⟩]))
  | t :: rest, commands, currentArgs =>
      if t = "|" then
        if currentArgs = [] then .error (.InvalidSyntax "Empty command in pipeline")
        else parsePipelineLoop rest (commands ++ [⟨currentArgs, []⟩]) []
      else
        parsePipelineLoop rest commands (currentArgs ++ [t])

/-- Rust `Parser::parse_pipeline` on a token list. -/
def parsePipeline (tokens : List String) : Except ParseError CommandLine :=
  parsePipelineLoop tokens [] []

/-- Rust `Parser::parse`.  `env` stands for the process environment that
`expand_variables` reads through `std::env::var`. -/
def parse (env : Env) (input : String) : Except ParseError CommandLine :=
  let tokens := tokenize input
  if tokens = [] then
    .error .EmptyCommand
  else
    let isBackground := tokens.getLast? = some "&"
    let tokens1 := if isBackground then tokens.dropLast else tokens
    if "|" ∈ tokens1 then
      if isBackground then
        .error (.InvalidSyntax "Background pipelines not supported")
      else
        parsePipeline tokens1
    else
      match parseSimpleCommand env tokens1 with
      | .error e => .error e
      | .ok cmd =>
          if isBackground then .ok (.Background cmd) else .ok (.Simple cmd)

/-- All `SimpleCommand`s contained in a `CommandLine`. -/
def CommandLine.simpleCommands : CommandLine → List SimpleCommand
  | .Simple cmd => [cmd]
  | .Pipeline cmds => cmds
  | .Background cmd => [cmd]

/-! ## Shell execution model (`src/shell.rs`)

The effectful parts are embedded against an explicit oracle describing what
the operating system answers: what each redirection-file open returns, what
spawning returns, and what waiting on the child returns.  `execute` then
becomes a pure function of the command and the oracle. -/

/-- Outcome of a finished child process, as observed through
`std::process::ExitStatus`: `exited code` has `.code() = Some code` and
`.success() = (code = 0)`; `signaled` has `.code() = None`. -/
inductive ExitStatus where
  | exited (code : Int)
  | signaled
  deriving DecidableEq, Repr

/-- Rust `ExitStatus::success`. -/
def ExitStatus.success : ExitStatus → Bool
  | .exited code => code = 0
  | .signaled => false

/-- An I/O error, identified by its message. -/
structure IOError where
  msg : String
  deriving DecidableEq, Repr

/-- What the operating system answers during
`Shell::execute_external_command`: the result of opening each redirection
file, of spawning the child, and of waiting for its status.  `spawn`
returns the child's OS pid. -/
structure ExecOracle where
  openFile : RedirectionType → String → Except IOError Unit
  spawn : Except IOError Nat
  status : Except IOError ExitStatus

/-- A tracked background job: the display index printed at spawn time and
the OS pid (`Child::id`). -/
structure Job where
  pid : Nat
  deriving DecidableEq, Repr

/-- Result of one `Shell::execute_external_command` call: change to the job
table plus everything printed (stdout and stderr diagnostics). -/
structure ExecResult where
  jobs : List Job
  output : List String
  deriving DecidableEq, Repr

/-- The redirection loop of `Shell::execute_external_command` (lines
374-391): each `File::open`/`File::create`/`OpenOptions::open` failure
propagates with `?`. -/
def applyRedirections (oracle : ExecOracle) : List Redirection → Except IOError Unit
  | [] => .ok ()
  | r :: rest =>
      match oracle.openFile r.redir_type r.filename with
      | .error e => .error e
      | .ok () => applyRedirections oracle rest

/-- Rust `Shell::execute_external_command` (`src/shell.rs` lines 364-410):
apply redirections, then either spawn in the background (print
`[<display_id>] <pid>`, push the job) or run in the foreground (wait for
the status; a non-success status is only reported on stderr). -/
def executeExternalCommand (oracle : ExecOracle) (cmd : SimpleCommand)
    (background : Bool) (jobs : List Job) : Except IOError ExecResult :=
  match applyRedirections oracle cmd.redirections with
  | .error e => .error e
  | .ok () =>
      if background then
        match oracle.spawn with
        | .error e => .error e
        | .ok pid =>
            .ok { jobs := jobs ++ [⟨pid⟩],
                  output := [s!"[{jobs.length + 1}] {pid}"] }
      else
        match oracle.status with
        | .error e => .error e
        | .ok status =>
            if status.success then
              .ok { jobs := jobs, output := [] }
            else
              match status with
              | .exited code => .ok { jobs := jobs, output := [s!"Command exited with code {code}"] }
              | .signaled => .ok { jobs := jobs, output := ["Command terminated by signal"] }

/-! ## Job table (`Shell::cleanup_background_jobs`,
`Shell::cleanup_all_jobs`, `src/shell.rs` lines 458-476) -/

/-- What one `Child::try_wait` call on a tracked job answers:
`Ok(Some(status))` (terminated), `Ok(None)` (still running), or `Err(_)`. -/
inductive PollResult where
  | done
  | running
  | err
  deriving DecidableEq, Repr

/-- Rust `Shell::cleanup_background_jobs`, with `poll` giving each job's
`try_wait` answer.  Mirrors `retain_mut`: keep exactly the still-running
jobs; print `[<pid>] Done` for a terminated job; drop erroring jobs
silently.  Returns the new job table and the printed lines. -/
def cleanupBackgroundJobs (poll : Job → PollResult) :
    List Job → List Job × List String
  | [] => ([], [])
  | j :: rest =>
      let (keptRest, outRest) := cleanupBackgroundJobs poll rest
      match poll j with
      | .done => (keptRest, s!"[{j.pid}] Done" :: outRest)
      | .running => (j :: keptRest, outRest)
      | .err => (keptRest, outRest)

/-- The actions `Shell::cleanup_all_jobs` issues, in order: for each drained
job, one `kill` (terminate signal) followed by one blocking `wait`. -/
inductive JobAction where
  | kill (pid : Nat)
  | wait (pid : Nat)
  deriving DecidableEq, Repr

/-- Rust `Shell::cleanup_all_jobs`: drain the whole table, killing and then
blocking-waiting every job.  Returns the emptied table and the issued OS
actions in order. -/
def cleanupAllJobs (jobs : List Job) : List Job × List JobAction :=
  ([], jobs.flatMap (fun j => [JobAction.kill j.pid, JobAction.wait j.pid]))

/-! ## Helper lemmas -/

theorem takeWhile_append_of_all {p : Char → Bool} {l1 : List Char} (l2 : List Char)
    (h : ∀ c ∈ l1, p c = true) :
    (l1 ++ l2).takeWhile p = l1 ++ l2.takeWhile p := by
  induction l1 with
  | nil => simp
  | cons c l ih =>
      have hc := h c (List.mem_cons_self c l)
      simp [List.takeWhile_cons, hc, ih (fun c hc' => h c (List.mem_cons_of_mem _ hc'))]

theorem dropWhile_append_of_all {p : Char → Bool} {l1 : List Char} (l2 : List Char)
    (h : ∀ c ∈ l1, p c = true) :
    (l1 ++ l2).dropWhile p = l2.dropWhile p := by
  induction l1 with
  | nil => simp
  | cons c l ih =>
      have hc := h c (List.mem_cons_self c l)
      simp [List.dropWhile_cons, hc, ih (fun c hc' => h c (List.mem_cons_of_mem _ hc'))]

theorem isNameChar_ne_lbrace {c : Char} (h : isNameChar c = true) : c ≠ '{' := by
  intro hc
  subst hc
  exact absurd h (by decide)

/-- Braced `${NAME}` with the closing brace present: braces consumed, the name read
until `}`, the value spliced, scanning resumes after the brace. -/
theorem expandVariables_braced_closed (env : Env) (name rest : List Char)
    (h : ∀ c ∈ name, c ≠ '}') :
    expandVariables env ('$' :: '{' :: (name ++ '}' :: rest)) =
      envValue env name ++ expandVariables env rest := by
  have hall : ∀ c ∈ name, (fun ch => decide (ch ≠ '}')) c = true := by
    intro c hc
    simpa using h c hc
  rw [expandVariables.eq_2, takeWhile_append_of_all _ hall, dropWhile_append_of_all _ hall]
  simp [List.takeWhile_cons, List.dropWhile_cons]

/-- Braced `${NAME` with no closing brace: the name scan stops at end of input. -/
theorem expandVariables_braced_missing (env : Env) (name : List Char)
    (h : ∀ c ∈ name, c ≠ '}') :
    expandVariables env ('$' :: '{' :: name) = envValue env name := by
  have hall : ∀ c ∈ name, (fun ch => decide (ch ≠ '}')) c = true := by
    intro c hc
    simpa using h c hc
  have ht : name.takeWhile (fun ch => decide (ch ≠ '}')) = name := by
    have := @takeWhile_append_of_all _ name [] hall
    simpa using this
  have hd : name.dropWhile (fun ch => decide (ch ≠ '}')) = [] := by
    have := @dropWhile_append_of_all _ name [] hall
    simpa using this
  rw [expandVariables.eq_2, ht, hd]
  simp [expandVariables]

/-- Bare `$NAME`: the name is the maximal run of name characters. -/
theorem expandVariables_bare (env : Env) (name rest : List Char)
    (hne : name ≠ []) (hall : ∀ c ∈ name, isNameChar c = true)
    (hstop : rest = [] ∨ ∃ c rest2, rest = c :: rest2 ∧ isNameChar c = false) :
    expandVariables env ('$' :: (name ++ rest)) =
      envValue env name ++ expandVariables env rest := by
  obtain ⟨n, name', rfl⟩ : ∃ n name', name = n :: name' := by
    cases name with
    | nil => exact absurd rfl hne
    | cons n l => exact ⟨n, l, rfl⟩
  have hn := hall n (List.mem_cons_self n name')
  have hall' : ∀ c ∈ name', isNameChar c = true :=
    fun c hc => hall c (List.mem_cons_of_mem _ hc)
  have hside : ∀ (r1 : List Char), (n :: (name' ++ rest)) = '{' :: r1 → False := by
    intro r1 hr
    injection hr with h1 _
    exact isNameChar_ne_lbrace hn h1
  have hrest_t : rest.takeWhile isNameChar = [] := by
    rcases hstop with rfl | ⟨c, rest2, rfl, hc⟩
    · rfl
    · simp [List.takeWhile_cons, hc]
  have hrest_d : rest.dropWhile isNameChar = rest := by
    rcases hstop with rfl | ⟨c, rest2, rfl, hc⟩
    · rfl
    · simp [List.dropWhile_cons, hc]
  have htw : (n :: (name' ++ rest)).takeWhile isNameChar = n :: name' := by
    simp [List.takeWhile_cons, hn, takeWhile_append_of_all _ hall', hrest_t]
  have hdw : (n :: (name' ++ rest)).dropWhile isNameChar = rest := by
    simp [List.dropWhile_cons, hn, dropWhile_append_of_all _ hall', hrest_d]
  rw [List.cons_append, expandVariables.eq_3 env _ hside, htw, hdw]
  simp

/-- A `$` not followed by `{` or a name character is emitted literally. -/
theorem expandVariables_dollar_literal (env : Env) (rest : List Char)
    (h : rest = [] ∨ ∃ c rest2, rest = c :: rest2 ∧ c ≠ '{' ∧ isNameChar c = false) :
    expandVariables env ('$' :: rest) = '$' :: expandVariables env rest := by
  rcases h with rfl | ⟨c, rest2, rfl, hc1, hc2⟩
  · rw [expandVariables.eq_3 env [] (by intro r1 hr; cases hr)]
    simp
  · have hside : ∀ (r1 : List Char), (c :: rest2) = '{' :: r1 → False := by
      intro r1 hr
      injection hr with h1 _
      exact hc1 h1
    rw [expandVariables.eq_3 env _ hside]
    simp [List.takeWhile_cons, List.dropWhile_cons, hc2]

/-- An unset variable contributes nothing to the expansion. -/
theorem envValue_unset (env : Env) (name : List Char)
    (h : envVar env (String.mk name) = none) : envValue env name = [] := by
  simp [envValue, h]

/-- A token without `$` is left unchanged by expansion. -/
theorem expandVariables_no_dollar (env : Env) (l : List Char)
    (h : ∀ c ∈ l, c ≠ '$') : expandVariables env l = l := by
  induction l with
  | nil => exact expandVariables.eq_1 env
  | cons c rest ih =>
      have hc : c ≠ '$' := h c (List.mem_cons_self c rest)
      rw [expandVariables.eq_4 env c rest (fun r1 h1 _ => absurd h1 hc) (fun h1 => absurd h1 hc),
        ih (fun x hx => h x (List.mem_cons_of_mem _ hx))]

/-- Running `parse` on a line whose last token is `&` and whose remaining tokens
contain `|` fails with `InvalidSyntax`. -/
theorem parse_background_pipeline_error (env : Env) (input : String)
    (h1 : (tokenize input).getLast? = some "&")
    (h2 : "|" ∈ (tokenize input).dropLast) :
    parse env input = .error (.InvalidSyntax "Background pipelines not supported") := by
  have hne : tokenize input ≠ [] := by
    intro h
    rw [h] at h1
    cases h1
  simp [parse, hne, h1, h2]

/-- A successful simple-command walk always delivers at least one
argument (the final `args.is_empty()` check). -/
theorem parseSimpleCommandLoop_ok_args (env : Env) (tokens args : List String)
    (redirs : List Redirection) (cmd : SimpleCommand)
    (h : parseSimpleCommandLoop env tokens args redirs = .ok cmd) : cmd.args ≠ [] := by
  revert h
  induction tokens, args, redirs using parseSimpleCommandLoop.induct env with
  | case1 redirs =>
      intro h
      simp [parseSimpleCommandLoop] at h
  | case2 args redirs ha =>
      intro h
      simp [parseSimpleCommandLoop, ha] at h
      cases cmd
      simp_all
  | case3 args redirs =>
      intro h
      simp [parseSimpleCommandLoop] at h
  | case4 args redirs f rest2 ih =>
      intro h
      simp only [parseSimpleCommandLoop] at h
      exact ih h
  | case5 args redirs _ =>
      intro h
      simp [parseSimpleCommandLoop] at h
  | case6 args redirs f rest2 _ ih =>
      intro h
      simp only [parseSimpleCommandLoop] at h
      exact ih h
  | case7 args redirs _ _ =>
      intro h
      simp [parseSimpleCommandLoop] at h
  | case8 args redirs f rest2 _ _ ih =>
      intro h
      simp only [parseSimpleCommandLoop] at h
      exact ih h
  | case9 t rest args redirs h1 h2 h3 ih =>
      intro h
      rw [parseSimpleCommandLoop.eq_def] at h
      simp only [if_neg h1, if_neg h2, if_neg h3] at h
      exact ih h

/-- Provenance of everything a successful simple-command walk delivers:
arguments satisfy any property true of expanded tokens, redirections any
property true of `⟨kind, token⟩` pairs built from raw tokens. -/
theorem parseSimpleCommandLoop_provenance (env : Env) (P : String → Prop)
    (Q : Redirection → Prop) (tokens args : List String) (redirs : List Redirection)
    (cmd : SimpleCommand)
    (hP0 : ∀ a ∈ args, P a)
    (hPt : ∀ t ∈ tokens, P (expandVariablesStr env t))
    (hQ0 : ∀ r ∈ redirs, Q r)
    (hQt : ∀ (rt : RedirectionType) (f : String), f ∈ tokens → Q ⟨rt, f⟩)
    (h : parseSimpleCommandLoop env tokens args redirs = .ok cmd) :
    (∀ a ∈ cmd.args, P a) ∧ (∀ r ∈ cmd.redirections, Q r) := by
  revert hP0 hPt hQ0 hQt h
  induction tokens, args, redirs using parseSimpleCommandLoop.induct env with
  | case1 redirs =>
      intro hP0 hPt hQ0 hQt h
      simp [parseSimpleCommandLoop] at h
  | case2 args redirs ha =>
      intro hP0 hPt hQ0 hQt h
      simp [parseSimpleCommandLoop, ha] at h
      cases cmd
      simp_all
  | case3 args redirs =>
      intro hP0 hPt hQ0 hQt h
      simp [parseSimpleCommandLoop] at h
  | case4 args redirs f rest2 ih =>
      intro hP0 hPt hQ0 hQt h
      simp only [parseSimpleCommandLoop] at h
      refine ih hP0 (fun t ht => hPt t (by simp [ht])) ?_
        (fun rt f2 hf => hQt rt f2 (by simp [hf])) h
      intro r hr
      rcases List.mem_append.mp hr with hm | hm
      · exact hQ0 r hm
      · simp at hm
        subst hm
        exact hQt .Input f (by simp)
  | case5 args redirs _ =>
      intro hP0 hPt hQ0 hQt h
      simp [parseSimpleCommandLoop] at h
  | case6 args redirs f rest2 _ ih =>
      intro hP0 hPt hQ0 hQt h
      simp only [parseSimpleCommandLoop] at h
      refine ih hP0 (fun t ht => hPt t (by simp [ht])) ?_
        (fun rt f2 hf => hQt rt f2 (by simp [hf])) h
      intro r hr
      rcases List.mem_append.mp hr with hm | hm
      · exact hQ0 r hm
      · simp at hm
        subst hm
        exact hQt .Output f (by simp)
  | case7 args redirs _ _ =>
      intro hP0 hPt hQ0 hQt h
      simp [parseSimpleCommandLoop] at h
  | case8 args redirs f rest2 _ _ ih =>
      intro hP0 hPt hQ0 hQt h
      simp only [parseSimpleCommandLoop] at h
      refine ih hP0 (fun t ht => hPt t (by simp [ht])) ?_
        (fun rt f2 hf => hQt rt f2 (by simp [hf])) h
      intro r hr
      rcases List.mem_append.mp hr with hm | hm
      · exact hQ0 r hm
      · simp at hm
        subst hm
        exact hQt .Append f (by simp)
  | case9 t rest args redirs h1 h2 h3 ih =>
      intro hP0 hPt hQ0 hQt h
      rw [parseSimpleCommandLoop.eq_def] at h
      simp only [if_neg h1, if_neg h2, if_neg h3] at h
      refine ih ?_ (fun t2 ht2 => hPt t2 (by simp [ht2])) hQ0
        (fun rt f2 hf => hQt rt f2 (by simp [hf])) h
      intro a ha
      rcases List.mem_append.mp ha with hm | hm
      · exact hP0 a hm
      · simp at hm
        subst hm
        exact hPt t (by simp)

/-- Invariant of the pipeline walk: every emitted stage is non-empty, has
no redirections, and draws its arguments from the accumulator or the raw
token stream. -/
theorem parsePipelineLoop_invariant (P : String → Prop) (tokens : List String) :
    ∀ (commands : List SimpleCommand) (currentArgs : List String) (cl : CommandLine),
    (∀ c ∈ commands, c.args ≠ [] ∧ c.redirections = [] ∧ ∀ a ∈ c.args, P a) →
    (∀ a ∈ currentArgs, P a) →
    (∀ t ∈ tokens, P t) →
    parsePipelineLoop tokens commands currentArgs = .ok cl →
    ∃ cmds, cl = .Pipeline cmds ∧
      ∀ c ∈ cmds, c.args ≠ [] ∧ c.redirections = [] ∧ ∀ a ∈ c.args, P a := by
  induction tokens with
  | nil =>
      intro commands currentArgs cl hc hcur _ h
      by_cases hca : currentArgs = []
      · simp [parsePipelineLoop, hca] at h
      · simp [parsePipelineLoop, hca] at h
        refine ⟨commands ++ [⟨currentArgs, []⟩], h.symm, ?_⟩
        intro c hcm
        rcases List.mem_append.mp hcm with hm | hm
        · exact hc c hm
        · simp at hm
          subst hm
          exact ⟨hca, rfl, hcur⟩
  | cons t rest ih =>
      intro commands currentArgs cl hc hcur ht h
      by_cases htp : t = "|"
      · subst htp
        by_cases hca : currentArgs = []
        · simp [parsePipelineLoop, hca] at h
        · simp [parsePipelineLoop, hca] at h
          refine ih (commands ++ [⟨currentArgs, []⟩]) [] cl ?_ (by simp)
            (fun t2 ht2 => ht t2 (List.mem_cons_of_mem _ ht2)) h
          intro c hcm
          rcases List.mem_append.mp hcm with hm | hm
          · exact hc c hm
          · simp at hm
            subst hm
            exact ⟨hca, rfl, hcur⟩
      · simp only [parsePipelineLoop, if_neg htp] at h
        refine ih commands (currentArgs ++ [t]) cl hc ?_
          (fun t2 ht2 => ht t2 (List.mem_cons_of_mem _ ht2)) h
        intro a ha
        rcases List.mem_append.mp ha with hm | hm
        · exact hcur a hm
        · simp at hm
          rcases hm with rfl
          exact ht _ (List.mem_cons_self _ _)

/-- Case analysis of a successful `parse`: the surviving token list (after
an optional trailing `&` removal) is drawn from `tokenize input`, and the
result came either from the simple-command walk (wrapped `Simple` or
`Background`) or from the pipeline walk. -/
theorem parse_ok_cases (env : Env) (input : String) (cl : CommandLine)
    (h : parse env input = .ok cl) :
    ∃ tokens1 : List String, (∀ t ∈ tokens1, t ∈ tokenize input) ∧
      ((∃ cmd, (cl = .Simple cmd ∨ cl = .Background cmd) ∧
          parseSimpleCommand env tokens1 = .ok cmd)
       ∨ parsePipelineLoop tokens1 [] [] = .ok cl) := by
  unfold parse at h
  by_cases h0 : tokenize input = []
  · rw [if_pos h0] at h
    cases h
  · rw [if_neg h0] at h
    simp only [] at h
    set tokens1 := if (tokenize input).getLast? = some "&" then (tokenize input).dropLast
      else tokenize input with htokens1
    have hmem : ∀ t ∈ tokens1, t ∈ tokenize input := by
      rw [htokens1]
      split
      · exact fun t ht => List.mem_of_mem_dropLast ht
      · exact fun t ht => ht
    refine ⟨tokens1, hmem, ?_⟩
    split at h
    · split at h
      · cases h
      · exact Or.inr h
    · revert h
      split
      · intro h
        cases h
      · rename_i cmd hcmd
        intro h
        split at h <;>
          exact Or.inl ⟨cmd, by cases h; simp, hcmd⟩

/-! ## Claims -/

/-- C2: `expand` resolves `${NAME}` (braces consumed, name read until `}`,
missing `}` stopping at end of input) and bare `$NAME` (name = maximal run
of name characters) against the environment map; an unset variable expands
to the empty string; a bare `$` not followed by a valid name character is
emitted literally; and with `env = [("X", "42")]` and `Y` unset, expanding
`"$X-$Y"` yields `"42-"`. -/
theorem claim_C2 :
    (∀ (env : Env) (name rest : List Char), (∀ c ∈ name, c ≠ '}') →
        expandVariables env ('$' :: '{' :: (name ++ '}' :: rest)) =
          envValue env name ++ expandVariables env rest)
  ∧ (∀ (env : Env) (name : List Char), (∀ c ∈ name, c ≠ '}') →
        expandVariables env ('$' :: '{' :: name) = envValue env name)
  ∧ (∀ (env : Env) (name rest : List Char), name ≠ [] →
        (∀ c ∈ name, isNameChar c = true) →
        (rest = [] ∨ ∃ c rest2, rest = c :: rest2 ∧ isNameChar c = false) →
        expandVariables env ('$' :: (name ++ rest)) =
          envValue env name ++ expandVariables env rest)
  ∧ (∀ (env : Env) (name : List Char), envVar env (String.mk name) = none →
        envValue env name = [])
  ∧ (∀ (env : Env) (rest : List Char),
        (rest = [] ∨ ∃ c rest2, rest = c :: rest2 ∧ c ≠ '{' ∧ isNameChar c = false) →
        expandVariables env ('$' :: rest) = '$' :: expandVariables env rest)
  ∧ expandVariablesStr [("X", "42")] "$X-$Y" = "42-" :=
  ⟨expandVariables_braced_closed, expandVariables_braced_missing,
   expandVariables_bare, envValue_unset, expandVariables_dollar_literal,
   by simp [expandVariablesStr, expandVariables, envValue, envVar, isNameChar, List.find?]⟩

/-- Witness for C2: each hypothesis-bearing conjunct applied at a concrete
input. -/
theorem claim_C2_witness :
    (expandVariables [("X", "42")] ('$' :: '{' :: (['X'] ++ '}' :: ['a'])) =
        envValue [("X", "42")] ['X'] ++ expandVariables [("X", "42")] ['a'])
  ∧ (expandVariables [("X", "42")] ('$' :: '{' :: ['X']) = envValue [("X", "42")] ['X'])
  ∧ (expandVariables [("X", "42")] ('$' :: (['X'] ++ ['-'])) =
        envValue [("X", "42")] ['X'] ++ expandVariables [("X", "42")] ['-'])
  ∧ envValue [("X", "42")] ['Y'] = []
  ∧ expandVariables [("X", "42")] ('$' :: ['-']) = '$' :: expandVariables [("X", "42")] ['-'] := by
  refine ⟨claim_C2.1 _ _ _ ?_, claim_C2.2.1 _ _ ?_,
          claim_C2.2.2.1 _ _ _ ?_ ?_ ?_, claim_C2.2.2.2.1 _ _ ?_,
          claim_C2.2.2.2.2.1 _ _ ?_⟩
  · decide
  · decide
  · decide
  · decide
  · exact Or.inr ⟨'-', [], rfl, by decide⟩
  · simp [envVar, List.find?]
  · exact Or.inr ⟨'-', [], rfl, by decide, by decide⟩

/-- C3: a line whose last token is `&` and whose remaining tokens contain
`|` fails to parse with `InvalidSyntax`; in particular `parse "a | b &"`
fails with `InvalidSyntax`, so a parsed `CommandLine` is never a background
pipeline. -/
theorem claim_C3 :
    (∀ (env : Env) (input : String),
        (tokenize input).getLast? = some "&" →
        "|" ∈ (tokenize input).dropLast →
        parse env input = .error (.InvalidSyntax "Background pipelines not supported"))
  ∧ ∀ env : Env,
      parse env "a | b &" = .error (.InvalidSyntax "Background pipelines not supported") := by
  have ht : tokenize "a | b &" = ["a", "|", "b", "&"] := by
    simp [tokenize, tokenizeLoop, flushTok]
  exact ⟨parse_background_pipeline_error,
    fun env => parse_background_pipeline_error env "a | b &"
      (by rw [ht]; decide) (by rw [ht]; decide)⟩

/-- Witness for C3: the general conjunct applied to the concrete line
`"a | b &"` under the empty environment. -/
theorem claim_C3_witness :
    parse [] "a | b &" = .error (.InvalidSyntax "Background pipelines not supported") := by
  have ht : tokenize "a | b &" = ["a", "|", "b", "&"] := by
    simp [tokenize, tokenizeLoop, flushTok]
  exact claim_C3.1 [] "a | b &" (by rw [ht]; decide) (by rw [ht]; decide)

/-- C5: inside a quoted region the tokenizer only extends the current token
(no split, no token emitted); an opening or closing quote character is
consumed and never lands in the token text; and
the example line tokenizes to `["a", "b c", "d"]`. -/
theorem claim_C5 :
    (∀ (c qc : Char) (rest cur : List Char) (toks : List String),
        ¬((c = '"' ∨ c = '\'') ∧ c = qc) →
        tokenizeLoop (c :: rest) cur true qc toks =
          tokenizeLoop rest (cur ++ [c]) true qc toks)
  ∧ (∀ (c : Char) (rest cur : List Char) (qc : Char) (toks : List String),
        c = '"' ∨ c = '\'' →
        tokenizeLoop (c :: rest) cur false qc toks = tokenizeLoop rest cur true c toks)
  ∧ (∀ (qc : Char) (rest cur : List Char) (toks : List String),
        qc = '"' ∨ qc = '\'' →
        tokenizeLoop (qc :: rest) cur true qc toks = tokenizeLoop rest cur false ' ' toks)
  ∧ tokenize "a \"b c\" d" = ["a", "b c", "d"] := by
  refine ⟨?_, ?_, ?_, ?_⟩
  · intro c qc rest cur toks h
    simp [tokenizeLoop, h]
  · intro c rest cur qc toks h
    rcases h with rfl | rfl <;> simp [tokenizeLoop]
  · intro qc rest cur toks h
    rcases h with rfl | rfl <;> simp [tokenizeLoop]
  · simp [tokenize, tokenizeLoop, flushTok]

/-- Witness for C5: the three step conjuncts applied at concrete states. -/
theorem claim_C5_witness :
    tokenizeLoop [' '] ['b'] true '"' [] = tokenizeLoop [] (['b'] ++ [' ']) true '"' []
  ∧ tokenizeLoop ['"'] [] false ' ' [] = tokenizeLoop [] [] true '"' []
  ∧ tokenizeLoop ['"'] ['b'] true '"' [] = tokenizeLoop [] ['b'] false ' ' [] :=
  ⟨claim_C5.1 ' ' '"' [] ['b'] [] (by decide),
   claim_C5.2.1 '"' [] [] ' ' [] (Or.inl rfl),
   claim_C5.2.2.1 '"' [] ['b'] [] (Or.inl rfl)⟩

/-- C9: an empty quoted string produces no token, so a quoted-empty
argument is dropped from the argument list and a line consisting only of
empty quotes fails to parse with `EmptyCommand`. -/
theorem claim_C9 :
    tokenize "\"\"" = []
  ∧ tokenize "''" = []
  ∧ tokenize "a \"\" b" = ["a", "b"]
  ∧ (∀ env : Env, parse env "\"\"" = .error .EmptyCommand)
  ∧ (∀ env : Env, parse env "''" = .error .EmptyCommand) := by
  have h1 : tokenize "\"\"" = [] := by simp [tokenize, tokenizeLoop, flushTok]
  have h2 : tokenize "''" = [] := by simp [tokenize, tokenizeLoop, flushTok]
  refine ⟨h1, h2, by simp [tokenize, tokenizeLoop, flushTok], fun env => ?_, fun env => ?_⟩
  · simp [parse, h1]
  · simp [parse, h2]

/-- C10: an `&` token that is not the final token is kept as an ordinary
argument: the simple-command walk pushes it as an argument, and
`parse "a & b"` succeeds as a `Simple` command with args
`["a", "&", "b"]`. -/
theorem claim_C10 :
    (∀ (env : Env) (rest args : List String) (redirs : List Redirection),
        parseSimpleCommandLoop env ("&" :: rest) args redirs =
          parseSimpleCommandLoop env rest (args ++ ["&"]) redirs)
  ∧ ∀ env : Env, parse env "a & b" = .ok (.Simple ⟨["a", "&", "b"], []⟩) := by
  have hamp : ∀ env : Env, expandVariablesStr env "&" = "&" := by
    intro env
    unfold expandVariablesStr
    rw [show "&".data = ['&'] from rfl, expandVariables_no_dollar env ['&'] (by decide)]
  constructor
  · intro env rest args redirs
    cases rest <;> simp [parseSimpleCommandLoop, hamp env]
  · intro env
    have ht : tokenize "a & b" = ["a", "&", "b"] := by
      simp [tokenize, tokenizeLoop, flushTok]
    have ha : expandVariablesStr env "a" = "a" := by
      unfold expandVariablesStr
      rw [show "a".data = ['a'] from rfl, expandVariables_no_dollar env ['a'] (by decide)]
    have hb : expandVariablesStr env "b" = "b" := by
      unfold expandVariablesStr
      rw [show "b".data = ['b'] from rfl, expandVariables_no_dollar env ['b'] (by decide)]
    simp [parse, ht, parseSimpleCommand, parseSimpleCommandLoop, hamp env, ha, hb]

/-- C6: a foreground external command that spawns successfully yields a
non-error result whatever the exit status; a failing status only adds a
diagnostic line. -/
theorem claim_C6 (oracle : ExecOracle) (cmd : SimpleCommand) (jobs : List Job)
    (status : ExitStatus)
    (hredir : applyRedirections oracle cmd.redirections = .ok ())
    (hstatus : oracle.status = .ok status) :
    ∃ res, executeExternalCommand oracle cmd false jobs = .ok res ∧
      res.jobs = jobs ∧ (status.success = false → res.output ≠ []) := by
  cases status with
  | exited code =>
      by_cases hc : code = 0
      · subst hc
        refine ⟨⟨jobs, []⟩, ?_, rfl, ?_⟩
        · simp [executeExternalCommand, hredir, hstatus, ExitStatus.success]
        · intro h
          simp [ExitStatus.success] at h
      · refine ⟨⟨jobs, [s!"Command exited with code {code}"]⟩, ?_, rfl, ?_⟩
        · simp [executeExternalCommand, hredir, hstatus, ExitStatus.success, hc]
        · intro _
          simp
  | signaled =>
      refine ⟨⟨jobs, ["Command terminated by signal"]⟩, ?_, rfl, ?_⟩
      · simp [executeExternalCommand, hredir, hstatus, ExitStatus.success]
      · intro _
        simp

/-- Witness for C6: an all-succeeding oracle whose child exited with
code 1. -/
theorem claim_C6_witness :
    ∃ res,
      executeExternalCommand
        ⟨fun _ _ => .ok (), .ok 7, .ok (.exited 1)⟩ ⟨["ls"], []⟩ false [] = .ok res ∧
      res.jobs = [] ∧ ((ExitStatus.exited 1).success = false → res.output ≠ []) :=
  claim_C6 ⟨fun _ _ => .ok (), .ok 7, .ok (.exited 1)⟩ ⟨["ls"], []⟩ [] (.exited 1)
    (by simp [applyRedirections]) rfl

/-- C7: one poll pass keeps exactly the still-running jobs, prints
`[<pid>] Done` once for each terminated job, and silently drops the jobs
whose poll errored. -/
theorem claim_C7 (poll : Job → PollResult) (jobs : List Job) :
    (cleanupBackgroundJobs poll jobs).1 = jobs.filter (fun j => poll j = .running)
  ∧ (cleanupBackgroundJobs poll jobs).2 =
      (jobs.filter (fun j => poll j = .done)).map (fun j => s!"[{j.pid}] Done") := by
  induction jobs with
  | nil => exact ⟨rfl, rfl⟩
  | cons j rest ih =>
      cases hp : poll j <;>
        simp [cleanupBackgroundJobs, hp, List.filter_cons, ih.1, ih.2]

/-- C8: shutdown empties the job table and issues a kill (terminate
signal) and a blocking wait for every one of the tracked jobs. -/
theorem claim_C8 (jobs : List Job) :
    (cleanupAllJobs jobs).1 = []
  ∧ (cleanupAllJobs jobs).2.length = 2 * jobs.length
  ∧ ∀ j ∈ jobs, JobAction.kill j.pid ∈ (cleanupAllJobs jobs).2 ∧
      JobAction.wait j.pid ∈ (cleanupAllJobs jobs).2 := by
  refine ⟨rfl, ?_, ?_⟩
  · induction jobs with
    | nil => rfl
    | cons j rest ih =>
        simp [cleanupAllJobs] at ih ⊢
        omega
  · intro j hj
    constructor <;>
      · simp only [cleanupAllJobs, List.mem_flatMap]
        exact ⟨j, hj, by simp⟩

/-- C4: every `SimpleCommand` in a successfully parsed `CommandLine` has at
least one argument; empty and whitespace-only input fail with
`EmptyCommand`. -/
theorem claim_C4 :
    (∀ (env : Env) (input : String) (cl : CommandLine), parse env input = .ok cl →
        ∀ cmd ∈ cl.simpleCommands, cmd.args ≠ [])
  ∧ (∀ env : Env, parse env "" = .error .EmptyCommand)
  ∧ (∀ env : Env, parse env "   " = .error .EmptyCommand) := by
  refine ⟨?_, ?_, ?_⟩
  · intro env input cl h cmd hcm
    rcases parse_ok_cases env input cl h with ⟨tokens1, _, ⟨c, hcl, hok⟩ | hok⟩
    · rcases hcl with rfl | rfl <;>
        simp only [CommandLine.simpleCommands, List.mem_singleton] at hcm <;>
        subst hcm <;>
        exact parseSimpleCommandLoop_ok_args env tokens1 [] [] cmd hok
    · rcases parsePipelineLoop_invariant (fun _ => True) tokens1 [] [] cl
        (by simp) (by simp) (by simp) hok with ⟨cmds, rfl, hcmds⟩
      simp only [CommandLine.simpleCommands] at hcm
      exact (hcmds cmd hcm).1
  · intro env
    have h : tokenize "" = [] := by simp [tokenize, tokenizeLoop, flushTok]
    simp [parse, h]
  · intro env
    have h : tokenize "   " = [] := by simp [tokenize, tokenizeLoop, flushTok]
    simp [parse, h]

/-- Witness for C4: the invariant conjunct applied to the parsed line
`"a"`. -/
theorem claim_C4_witness : (⟨["a"], []⟩ : SimpleCommand).args ≠ [] := by
  have ha : expandVariablesStr [] "a" = "a" := by
    unfold expandVariablesStr
    rw [show "a".data = ['a'] from rfl, expandVariables_no_dollar [] ['a'] (by decide)]
  have hp : parse [] "a" = .ok (.Simple ⟨["a"], []⟩) := by
    have ht : tokenize "a" = ["a"] := by simp [tokenize, tokenizeLoop, flushTok]
    simp [parse, ht, parseSimpleCommand, parseSimpleCommandLoop, ha]
  exact claim_C4.1 [] "a" (.Simple ⟨["a"], []⟩) hp ⟨["a"], []⟩
    (by simp [CommandLine.simpleCommands])

/-- Concrete evaluation: with `X=42`, `"echo > $X"` parses with the
redirection filename kept verbatim. -/
theorem parse_echo_redirect_eval :
    parse [("X", "42")] "echo > $X" = .ok (.Simple ⟨["echo"], [⟨.Output, "$X"⟩]⟩) := by
  have hecho : expandVariablesStr [("X", "42")] "echo" = "echo" := by
    unfold expandVariablesStr
    rw [show "echo".data = ['e', 'c', 'h', 'o'] from rfl,
      expandVariables_no_dollar _ _ (by decide)]
  have ht : tokenize "echo > $X" = ["echo", ">", "$X"] := by
    simp [tokenize, tokenizeLoop, flushTok]
  simp [parse, ht, parseSimpleCommand, parseSimpleCommandLoop, hecho]

/-- C1 as stated is false on the code: the filename of a redirection and
the argument tokens of a pipeline stage reach the `CommandLine` without
variable expansion.  With `X=42`, `"echo > $X"` keeps filename `"$X"`
(whose expansion would be `"42"`), and `"a $X | b"` keeps the stage
argument `"$X"`. -/
theorem claim_C1_counterexample :
    parse [("X", "42")] "echo > $X" = .ok (.Simple ⟨["echo"], [⟨.Output, "$X"⟩]⟩)
  ∧ expandVariablesStr [("X", "42")] "$X" = "42"
  ∧ parse [("X", "42")] "a $X | b" =
      .ok (.Pipeline [⟨["a", "$X"], []⟩, ⟨["b"], []⟩]) := by
  refine ⟨parse_echo_redirect_eval, ?_, ?_⟩
  · simp [expandVariablesStr, expandVariables, envValue, envVar, isNameChar, List.find?]
  · have ht : tokenize "a $X | b" = ["a", "$X", "|", "b"] := by
      simp [tokenize, tokenizeLoop, flushTok]
    simp [parse, ht, parsePipeline, parsePipelineLoop]

/-- C1 (amended): variable expansion is applied during parsing exactly to
the argument tokens of a non-pipeline command; redirection target
filenames and pipeline-stage argument tokens are taken verbatim from the
token stream, unexpanded. -/
theorem claim_C1_amended :
    (∀ (env : Env) (input : String) (cl : CommandLine), parse env input = .ok cl →
        ∀ cmd ∈ cl.simpleCommands, ∀ r ∈ cmd.redirections, r.filename ∈ tokenize input)
  ∧ (∀ (env : Env) (input : String) (cmd : SimpleCommand),
        parse env input = .ok (.Simple cmd) ∨ parse env input = .ok (.Background cmd) →
        ∀ a ∈ cmd.args, ∃ t ∈ tokenize input, a = expandVariablesStr env t)
  ∧ (∀ (env : Env) (input : String) (cmds : List SimpleCommand),
        parse env input = .ok (.Pipeline cmds) →
        ∀ cmd ∈ cmds, cmd.redirections = [] ∧ ∀ a ∈ cmd.args, a ∈ tokenize input) := by
  refine ⟨?_, ?_, ?_⟩
  · intro env input cl h cmd hcm r hr
    rcases parse_ok_cases env input cl h with ⟨tokens1, hmem, ⟨c, hcl, hok⟩ | hok⟩
    · rcases hcl with rfl | rfl <;>
        simp only [CommandLine.simpleCommands, List.mem_singleton] at hcm <;>
        subst hcm <;>
        exact (parseSimpleCommandLoop_provenance env (fun _ => True)
          (fun r2 => r2.filename ∈ tokenize input) tokens1 [] [] cmd
          (by simp) (by simp) (by simp)
          (fun rt f hf => hmem f hf) hok).2 r hr
    · rcases parsePipelineLoop_invariant (fun _ => True) tokens1 [] [] cl
        (by simp) (by simp) (by simp) hok with ⟨cmds, rfl, hcmds⟩
      simp only [CommandLine.simpleCommands] at hcm
      rcases hcmds cmd hcm with ⟨_, hred, _⟩
      rw [hred] at hr
      cases hr
  · intro env input cmd h a ha
    rcases h with h | h
    · rcases parse_ok_cases env input _ h with ⟨tokens1, hmem, ⟨c, hcl, hok⟩ | hok⟩
      · rcases hcl with hcl | hcl
        · injection hcl with hc
          subst hc
          exact (parseSimpleCommandLoop_provenance env
            (fun a2 => ∃ t ∈ tokenize input, a2 = expandVariablesStr env t)
            (fun _ => True) tokens1 [] [] cmd
            (by simp) (fun t ht => ⟨t, hmem t ht, rfl⟩) (by simp) (by simp) hok).1 a ha
        · simp at hcl
      · rcases parsePipelineLoop_invariant (fun _ => True) tokens1 [] [] _
          (by simp) (by simp) (by simp) hok with ⟨cmds, hcl, _⟩
        simp at hcl
    · rcases parse_ok_cases env input _ h with ⟨tokens1, hmem, ⟨c, hcl, hok⟩ | hok⟩
      · rcases hcl with hcl | hcl
        · simp at hcl
        · injection hcl with hc
          subst hc
          exact (parseSimpleCommandLoop_provenance env
            (fun a2 => ∃ t ∈ tokenize input, a2 = expandVariablesStr env t)
            (fun _ => True) tokens1 [] [] cmd
            (by simp) (fun t ht => ⟨t, hmem t ht, rfl⟩) (by simp) (by simp) hok).1 a ha
      · rcases parsePipelineLoop_invariant (fun _ => True) tokens1 [] [] _
          (by simp) (by simp) (by simp) hok with ⟨cmds, hcl, _⟩
        simp at hcl
  · intro env input cmds h cmd hcm
    rcases parse_ok_cases env input _ h with ⟨tokens1, hmem, ⟨c, hcl, hok⟩ | hok⟩
    · rcases hcl with hcl | hcl <;> simp at hcl
    · rcases parsePipelineLoop_invariant (fun a => a ∈ tokenize input) tokens1 [] []
        (.Pipeline cmds) (by simp) (by simp) (fun t ht => hmem t ht) hok with
        ⟨cmds2, hcl, hcmds⟩
      injection hcl with hc
      subst hc
      rcases hcmds cmd hcm with ⟨_, h1, h2⟩
      exact ⟨h1, h2⟩

/-- Witness for C1 (amended): the redirection-filename conjunct applied to
the parsed line `"echo > $X"`. -/
theorem claim_C1_witness :
    (⟨RedirectionType.Output, "$X"⟩ : Redirection).filename ∈ tokenize "echo > $X" :=
  claim_C1_amended.1 [("X", "42")] "echo > $X" (.Simple ⟨["echo"], [⟨.Output, "$X"⟩]⟩)
    parse_echo_redirect_eval ⟨["echo"], [⟨.Output, "$X"⟩]⟩
    (by simp [CommandLine.simpleCommands]) ⟨.Output, "$X"⟩ (by simp)

end Aish
